import Mathlib

/-!
Verification of `scripts/scan_todos.py`, a line-oriented TODO-comment scanner.

Lines are modelled as `List Char` without their trailing newline: the Python
code reads files with `readlines()` and applies every regular expression to a
single line, and a trailing `'\n'` never changes the outcome of any of the
patterns used (it is stripped by `str.strip()` wherever it could be observed).
Python's `\s` class and `str.strip()` are modelled on their ASCII fragment.
-/

/-- The ASCII whitespace characters matched by Python's regex class and
stripped by `str.strip()`. -/
def isSpaceChar (c : Char) : Bool :=
  decide (c = ' ' ∨ c = '\t' ∨ c = '\n' ∨ c = '\r' ∨ c = '\x0b' ∨ c = '\x0c')

/-- The character class `[A-Z0-9-]` of the feature-identifier grammar. -/
def isIdChar (c : Char) : Bool :=
  decide (('A' ≤ c ∧ c ≤ 'Z') ∨ ('0' ≤ c ∧ c ≤ '9') ∨ c = '-')

/-- Greedy `\s*`: drop the maximal leading run of whitespace. -/
def dropSpaces (l : List Char) : List Char :=
  l.dropWhile isSpaceChar

/-- Python `str.strip()`: remove leading and trailing whitespace. -/
def stripChars (l : List Char) : List Char :=
  ((l.dropWhile isSpaceChar).reverse.dropWhile isSpaceChar).reverse

/-- Python `str.split(',')`: split at every comma, keeping empty pieces; the
result of splitting any string is non-empty. -/
def splitComma : List Char → List (List Char)
  | [] => [[]]
  | c :: rest =>
    if c = ',' then [] :: splitComma rest
    else
      match splitComma rest with
      | t :: ts => (c :: t) :: ts
      | [] => [[c]]

/-- Shared front end of the registry line pattern
`^\s*-\s*id:\s+([A-Z0-9-]+)` (scan_todos.py line 19): the text that follows
`\s*-\s*id:\s+` on a line of the right shape, `none` otherwise. -/
def idLineRest (l : List Char) : Option (List Char) :=
  match dropSpaces l with
  | '-' :: r1 =>
    match dropSpaces r1 with
    | 'i' :: 'd' :: ':' :: r2 =>
      match r2 with
      | c :: r3 => if isSpaceChar c then some (dropSpaces r3) else none
      | [] => none
    | _ => none
  | _ => none

/-- `pattern.match(line)` for the registry pattern of `load_feature_ids`
(line 19): the captured group `([A-Z0-9-]+)` is the maximal leading run of
identifier characters, required non-empty. -/
def matchIdLine (l : List Char) : Option (List Char) :=
  match idLineRest l with
  | none => none
  | some u =>
    let tok := u.takeWhile isIdChar
    if tok = [] then none else some tok

/-- `load_feature_ids` (lines 16-27): collect the captures of every matching
line.  The Python function returns a set; the model returns the list of
captures and set-equality is read as membership equivalence. -/
def load_feature_ids (lines : List (List Char)) : List (List Char) :=
  lines.filterMap matchIdLine

/-- Spec-side reading of a registry line, following the spec's words: the
*value* of an `- id:` entry is the whole text after `id:` and its separating
whitespace, with surrounding whitespace trimmed. -/
def specIdValue (l : List Char) : Option (List Char) :=
  match idLineRest l with
  | none => none
  | some u => some (stripChars u)

/-- Spec-side reading of the loader, following the spec's words: keep exactly
the values of `id:` entries whose whole value matches `[A-Z0-9-]+`. -/
def specLoadIds (lines : List (List Char)) : List (List Char) :=
  lines.filterMap fun l =>
    match specIdValue l with
    | none => none
    | some v => if v ≠ [] ∧ v.all isIdChar then some v else none

/-- `re.sub(r'^///?\s*', '', s)` (line 70): remove a leading `///` or `//`
marker together with the whitespace after it; leave other strings unchanged. -/
def contStrip (l : List Char) : List Char :=
  match l with
  | '/' :: '/' :: '/' :: r => dropSpaces r
  | '/' :: '/' :: r => dropSpaces r
  | _ => l

/-- The continuation text extracted from a raw line (lines 67-70):
strip the line, remove the comment marker, strip again. -/
def contText (l : List Char) : List Char :=
  stripChars (contStrip (stripChars l))

/-- Continuation eligibility of a raw line (lines 67-75): the stripped line
starts with `///` or `//`, and the extracted text is non-empty and does not
itself start with `TODO:`. -/
def eligLine (l : List Char) : Bool :=
  let nl := stripChars l
  (List.isPrefixOf ['/', '/', '/'] nl || List.isPrefixOf ['/', '/'] nl) &&
    (!(stripChars (contStrip nl)).isEmpty &&
      !(List.isPrefixOf ['T', 'O', 'D', 'O', ':'] (stripChars (contStrip nl))))

/-- The TODO-line pattern `^\s*(///?|//)\s*TODO:\s*\(([^)]+)\)\s*(.*)$`
(line 43), returning the parenthesized group (group 2) and the stripped
trailing description (`match.group(3).strip()`, line 53).  Stripping the
whole tail after `)` equals stripping group 3, since `\s*` only removes
leading whitespace and `(.*)$` only excludes the trailing newline. -/
def todoMatch (l : List Char) : Option (List Char × List Char) :=
  match dropSpaces l with
  | '/' :: '/' :: r0 =>
    let r1 := match r0 with
      | '/' :: r => r
      | r => r
    match dropSpaces r1 with
    | 'T' :: 'O' :: 'D' :: 'O' :: ':' :: r2 =>
      match dropSpaces r2 with
      | '(' :: r3 =>
        let grp := r3.takeWhile fun c => c != ')'
        match r3.dropWhile fun c => c != ')' with
        | ')' :: r4 => if grp = [] then none else some (grp, stripChars r4)
        | _ => none
      | _ => none
    | _ => none
  | _ => none

/-- The continuation loop (lines 63-77): consume continuation-eligible lines,
appending a space and the extracted text of each to the description; return
how many lines were consumed and the final description. -/
def contLoop : List (List Char) → List Char → Nat × List Char
  | [], d => (0, d)
  | next :: rest, d =>
    let nl := stripChars next
    if List.isPrefixOf ['/', '/', '/'] nl || List.isPrefixOf ['/', '/'] nl then
      let c := stripChars (contStrip nl)
      if !c.isEmpty && !(List.isPrefixOf ['T', 'O', 'D', 'O', ':'] c) then
        let q := contLoop rest (d ++ ' ' :: c)
        (q.1 + 1, q.2)
      else (0, d)
    else (0, d)

/-- One recorded TODO (the dict appended at lines 79-84).  The Python `line`
field is the string `f"{i + 1}-{j}"`; the model stores the two numbers and
`lineField` renders the string. -/
structure Todo where
  file : List Char
  lineStart : Nat
  lineEnd : Nat
  description : List Char
  dependencies : List (List Char)
deriving DecidableEq

/-- The `line` field of the output record: `f"{i + 1}-{j}"` (line 81). -/
def lineField (t : Todo) : List Char :=
  Nat.toDigits 10 t.lineStart ++ '-' :: Nat.toDigits 10 t.lineEnd

/-- A warning printed during the scan: either the invalid-identifier warning
of line 61 or the unreadable-file warning of line 38. -/
inductive Warn where
  | invalid (file : List Char) (line : Nat) (ids : List (List Char))
  | readFail (file : List Char)
deriving DecidableEq

/-- The scanning loop of `scan_file_for_todos` (lines 45-87).  The first
argument is fuel, consumed once per outer iteration; since every iteration
advances the cursor by at least one line, fuel `lines.length` is enough.
`i` is the 0-based index of the current line in the whole file. -/
def scanGo (file : List Char) (valid : List (List Char)) :
    Nat → List (List Char) → Nat → List Todo × List Warn
  | 0, _, _ => ([], [])
  | _ + 1, [], _ => ([], [])
  | f + 1, line :: rest, i =>
    match todoMatch line with
    | none => scanGo file valid f rest (i + 1)
    | some gd =>
      let feature_ids := (splitComma gd.1).map stripChars
      let invalid_ids := feature_ids.filter fun d => !(valid.contains d)
      let p := contLoop rest gd.2
      let t : Todo := ⟨file, i + 1, i + 1 + p.1,
        if p.2 = [] then "No description provided".toList else p.2, feature_ids⟩
      let r := scanGo file valid f (rest.drop p.1) (i + 1 + p.1)
      (t :: r.1,
        (if invalid_ids = [] then [] else [Warn.invalid file (i + 1) invalid_ids]) ++ r.2)

/-- Scan the lines of one file from the top. -/
def scanLines (file : List Char) (valid : List (List Char))
    (lines : List (List Char)) : List Todo × List Warn :=
  scanGo file valid lines.length lines 0

/-- `scan_file_for_todos` (lines 30-89): `content` is `none` when reading the
file raises, in which case a warning is printed and no annotations are
produced; otherwise the lines are scanned. -/
def scan_file_for_todos (file : List Char) (valid : List (List Char))
    (content : Option (List (List Char))) : List Todo × List Warn :=
  match content with
  | none => ([], [Warn.readFail file])
  | some lines => scanLines file valid lines

/-- `scan_project` (lines 92-105), abstracted over the directory walk: each
candidate file is given with its read result, and the per-file results are
concatenated in order. -/
def scan_project (valid : List (List Char))
    (files : List (List Char × Option (List (List Char)))) : List Todo × List Warn :=
  match files with
  | [] => ([], [])
  | (file, content) :: rest =>
    let r := scan_file_for_todos file valid content
    let rs := scan_project valid rest
    (r.1 ++ rs.1, r.2 ++ rs.2)

/-- The sort key order of `main` (line 128): Python compares the tuples
`(file, int(line.split('-')[0]))` lexicographically, i.e. by file path
(string comparison, which on `List Char` is the lexicographic order) and
then by numeric start line. -/
def todoLE (a b : Todo) : Prop :=
  a.file < b.file ∨ (a.file = b.file ∧ a.lineStart ≤ b.lineStart)

instance (a b : Todo) : Decidable (todoLE a b) :=
  inferInstanceAs (Decidable (_ ∨ _))

/-- Insert into a sorted list, before the first element not below `t`. -/
def insertTodo (t : Todo) : List Todo → List Todo
  | [] => [t]
  | h :: r => if todoLE t h then t :: h :: r else h :: insertTodo t r

/-- `todos.sort(key=...)` (line 128), modelled as a stable insertion sort
with the same total preorder; a stable sort is determined by its comparator,
so this computes the same sequence as Python's sort. -/
def sortTodos : List Todo → List Todo
  | [] => []
  | h :: r => insertTodo h (sortTodos r)

/-- Comma-joining, used to state that `splitComma` is exactly a split at
commas: joining the pieces with `','` restores the input. -/
def joinComma : List (List Char) → List Char
  | [] => []
  | [x] => x
  | x :: xs => x ++ ',' :: joinComma xs

/-- Space-joining of the continuation texts. -/
def joinSpace : List (List Char) → List Char
  | [] => []
  | [x] => x
  | x :: xs => x ++ ' ' :: joinSpace xs

/-! ### Helper lemmas -/

theorem splitComma_ne_nil (l : List Char) : splitComma l ≠ [] := by
  induction l with
  | nil => simp [splitComma]
  | cons c rest ih =>
    simp only [splitComma]
    split
    · simp
    · rcases h : splitComma rest with _ | ⟨t, ts⟩ <;> simp

theorem joinComma_splitComma (l : List Char) : joinComma (splitComma l) = l := by
  induction l with
  | nil => simp [splitComma, joinComma]
  | cons c rest ih =>
    rcases h : splitComma rest with _ | ⟨t, ts⟩
    · exact absurd h (splitComma_ne_nil rest)
    · rw [h] at ih
      simp only [splitComma, h]
      split
      · rename_i hc
        subst hc
        simp only [joinComma, List.nil_append]
        rw [ih]
      · rcases ts with _ | ⟨t2, ts2⟩
        · simp only [joinComma] at ih ⊢
          rw [ih]
        · simp only [joinComma, List.cons_append] at ih ⊢
          rw [ih]

theorem length_splitComma (l : List Char) : (splitComma l).length = l.count ',' + 1 := by
  induction l with
  | nil => simp [splitComma]
  | cons c rest ih =>
    rcases h : splitComma rest with _ | ⟨t, ts⟩
    · exact absurd h (splitComma_ne_nil rest)
    · rw [h] at ih
      simp only [splitComma, h, List.count_cons]
      split
      · rename_i hc
        subst hc
        simp [ih]
      · rename_i hc
        simp only [List.length_cons] at ih ⊢
        have : (c == ',') = false := by simp [hc]
        simp [this, ih]

theorem not_mem_splitComma (l : List Char) : ∀ p ∈ splitComma l, ',' ∉ p := by
  induction l with
  | nil => intro p hp; simp [splitComma] at hp; simp [hp]
  | cons c rest ih =>
    intro p hp
    rcases h : splitComma rest with _ | ⟨t, ts⟩
    · exact absurd h (splitComma_ne_nil rest)
    · rw [splitComma, h] at hp
      split at hp
      · rename_i hc
        rcases List.mem_cons.1 hp with h1 | h1
        · simp [h1]
        · exact ih p (h ▸ h1)
      · rename_i hc
        rcases List.mem_cons.1 hp with h1 | h1
        · subst h1
          intro hmem
          rcases List.mem_cons.1 hmem with h2 | h2
          · exact hc h2.symm
          · exact ih t (h ▸ List.mem_cons_self t ts) h2
        · exact ih p (h ▸ List.mem_cons_of_mem t h1)

theorem contLoop_eq (rest : List (List Char)) (d : List Char) :
    contLoop rest d =
      ((rest.takeWhile eligLine).length,
        d ++ (((rest.takeWhile eligLine).map contText).map (fun c => ' ' :: c)).flatten) := by
  induction rest generalizing d with
  | nil => simp [contLoop]
  | cons next rest ih =>
    by_cases h1 : (List.isPrefixOf ['/', '/', '/'] (stripChars next)
        || List.isPrefixOf ['/', '/'] (stripChars next)) = true
    · by_cases h2 : (!(stripChars (contStrip (stripChars next))).isEmpty
          && !(List.isPrefixOf ['T', 'O', 'D', 'O', ':']
            (stripChars (contStrip (stripChars next))))) = true
      · have he : eligLine next = true := by
          simp only [eligLine]
          rw [h1, h2]
          rfl
        simp only [contLoop, h1, h2, if_true]
        rw [ih]
        rw [List.takeWhile_cons, he]
        simp only [if_true, List.map_cons, List.flatten_cons, List.length_cons]
        simp [contText, List.append_assoc]
      · have hB : (!(stripChars (contStrip (stripChars next))).isEmpty
            && !(List.isPrefixOf ['T', 'O', 'D', 'O', ':']
              (stripChars (contStrip (stripChars next))))) = false :=
          Bool.eq_false_iff.mpr h2
        have he : eligLine next = false := by
          simp only [eligLine]
          rw [hB]
          simp
        simp [contLoop, h1, hB, List.takeWhile_cons, he]
    · have hA : (List.isPrefixOf ['/', '/', '/'] (stripChars next)
          || List.isPrefixOf ['/', '/'] (stripChars next)) = false :=
        Bool.eq_false_iff.mpr h1
      have he : eligLine next = false := by
        simp only [eligLine]
        rw [hA]
        simp
      simp [contLoop, hA, List.takeWhile_cons, he]

theorem joinSpace_cons (c : List Char) (cs : List (List Char)) :
    c ++ ((cs.map (fun x => ' ' :: x)).flatten) = joinSpace (c :: cs) := by
  induction cs generalizing c with
  | nil => simp [joinSpace]
  | cons x xs ih =>
    simp only [List.map_cons, List.flatten_cons, joinSpace]
    rw [← ih x]
    simp [List.append_assoc]

theorem isId_of_isSpace_false (c : Char) (h : isSpaceChar c = true) : isIdChar c = false := by
  simp only [isSpaceChar, decide_eq_true_eq] at h
  rcases h with h | h | h | h | h | h <;> subst h <;> decide

theorem takeWhile_append_of_nil {p : Char → Bool} (a b : List Char)
    (hb : b.takeWhile p = []) : (a ++ b).takeWhile p = a.takeWhile p := by
  induction a with
  | nil => simpa using hb
  | cons x xs ih =>
    by_cases hp : p x = true
    · simp [List.takeWhile_cons, hp, ih]
    · simp only [Bool.not_eq_true] at hp
      simp [List.takeWhile_cons, hp]

theorem takeWhile_id_rstrip (u : List Char) :
    ((u.reverse.dropWhile isSpaceChar).reverse).takeWhile isIdChar = u.takeWhile isIdChar := by
  have hu : u = (u.reverse.dropWhile isSpaceChar).reverse
      ++ (u.reverse.takeWhile isSpaceChar).reverse := by
    conv_lhs => rw [← List.reverse_reverse u,
      ← List.takeWhile_append_dropWhile isSpaceChar u.reverse]
    rw [List.reverse_append]
  have hB : ((u.reverse.takeWhile isSpaceChar).reverse).takeWhile isIdChar = [] := by
    cases h : (u.reverse.takeWhile isSpaceChar).reverse with
    | nil => simp
    | cons x xs =>
      have hx : x ∈ u.reverse.takeWhile isSpaceChar := by
        have hx0 : x ∈ (u.reverse.takeWhile isSpaceChar).reverse :=
          h ▸ List.mem_cons_self x xs
        simpa using hx0
      simp [List.takeWhile_cons, isId_of_isSpace_false x (List.mem_takeWhile_imp hx)]
  conv_rhs => rw [hu]
  rw [takeWhile_append_of_nil _ _ hB]

theorem idLineRest_shape (l : List Char) (u : List Char) (h : idLineRest l = some u) :
    u.dropWhile isSpaceChar = u := by
  unfold idLineRest at h
  repeat split at h
  all_goals first
    | (injection h with h'
       subst h'
       exact List.dropWhile_idempotent isSpaceChar _)
    | exact absurd h (by simp)

theorem matchIdLine_eq_some (l : List Char) (tok : List Char) :
    matchIdLine l = some tok ↔
      ∃ u, idLineRest l = some u ∧ tok = u.takeWhile isIdChar ∧ tok ≠ [] := by
  unfold matchIdLine
  cases h : idLineRest l with
  | none => simp
  | some u =>
    by_cases ht : u.takeWhile isIdChar = []
    · simp [ht]
    · simp [ht, eq_comm]
      intro h'
      subst h'
      exact ht

theorem specIdValue_eq_some (l : List Char) (v : List Char) :
    specIdValue l = some v ↔ ∃ u, idLineRest l = some u ∧ v = stripChars u := by
  unfold specIdValue
  cases h : idLineRest l with
  | none => simp
  | some u => simp [eq_comm]

theorem takeWhile_stripChars_of_rest (l u : List Char) (h : idLineRest l = some u) :
    (stripChars u).takeWhile isIdChar = u.takeWhile isIdChar := by
  unfold stripChars
  rw [idLineRest_shape l u h]
  exact takeWhile_id_rstrip u

theorem scanGo_warn (file : List Char) (valid : List (List Char)) :
    ∀ (f : Nat) (lines : List (List Char)) (i : Nat),
      (scanGo file valid f lines i).2 =
        (scanGo file valid f lines i).1.filterMap fun t =>
          if t.dependencies.filter (fun d => !(valid.contains d)) = [] then none
          else some (Warn.invalid file t.lineStart
            (t.dependencies.filter fun d => !(valid.contains d))) := by
  intro f
  induction f with
  | zero => intro lines i; simp [scanGo]
  | succ f ih =>
    intro lines i
    cases lines with
    | nil => simp [scanGo]
    | cons line rest =>
      cases h : todoMatch line with
      | none => simp only [scanGo, h]; exact ih rest (i + 1)
      | some gd =>
        simp only [scanGo, h]
        rw [ih, List.filterMap_cons]
        dsimp only
        by_cases hinv :
            ((splitComma gd.1).map stripChars).filter (fun d => !(valid.contains d)) = []
        · rw [if_pos hinv, if_pos hinv]
          simp
        · rw [if_neg hinv, if_neg hinv]
          simp

theorem scanGo_deps (file : List Char) (valid : List (List Char)) :
    ∀ (f : Nat) (lines : List (List Char)) (i : Nat) (t : Todo),
      t ∈ (scanGo file valid f lines i).1 → t.dependencies ≠ [] := by
  intro f
  induction f with
  | zero => intro lines i t ht; simp [scanGo] at ht
  | succ f ih =>
    intro lines i t ht
    cases lines with
    | nil => simp [scanGo] at ht
    | cons line rest =>
      cases h : todoMatch line with
      | none =>
        simp only [scanGo, h] at ht
        exact ih rest (i + 1) t ht
      | some gd =>
        simp only [scanGo, h, List.mem_cons] at ht
        rcases ht with rfl | ht
        · intro hc
          simp only [List.map_eq_nil_iff] at hc
          exact splitComma_ne_nil gd.1 hc
        · exact ih _ _ t ht

theorem scanGo_pos (file : List Char) (valid : List (List Char)) :
    ∀ (f : Nat) (lines : List (List Char)) (i : Nat) (t : Todo),
      t ∈ (scanGo file valid f lines i).1 →
      i + 1 ≤ t.lineStart ∧
      (∃ L, lines[t.lineStart - 1 - i]? = some L ∧ (todoMatch L).isSome = true) ∧
      t.lineEnd = t.lineStart + ((lines.drop (t.lineStart - i)).takeWhile eligLine).length := by
  intro f
  induction f with
  | zero => intro lines i t ht; simp [scanGo] at ht
  | succ f ih =>
    intro lines i t ht
    cases lines with
    | nil => simp [scanGo] at ht
    | cons line rest =>
      cases h : todoMatch line with
      | none =>
        simp only [scanGo, h] at ht
        obtain ⟨h1, ⟨L, hL, hm⟩, h3⟩ := ih rest (i + 1) t ht
        refine ⟨by omega, ⟨L, ?_, hm⟩, ?_⟩
        · have e1 : t.lineStart - 1 - i = (t.lineStart - 1 - (i + 1)) + 1 := by omega
          rw [e1, List.getElem?_cons_succ]
          exact hL
        · have e2 : t.lineStart - i = (t.lineStart - (i + 1)) + 1 := by omega
          rw [e2, List.drop_succ_cons]
          exact h3
      | some gd =>
        simp only [scanGo, h, List.mem_cons] at ht
        rcases ht with rfl | ht
        · refine ⟨le_refl _, ⟨line, ?_, by simp [h]⟩, ?_⟩
          · have e1 : i + 1 - 1 - i = 0 := by omega
            simp [e1]
          · have e2 : i + 1 - i = 1 := by omega
            simp only [e2, List.drop_succ_cons, List.drop_zero]
            rw [contLoop_eq]
        · obtain ⟨h1, ⟨L, hL, hm⟩, h3⟩ := ih _ _ t ht
          refine ⟨by omega, ⟨L, ?_, hm⟩, ?_⟩
          · rw [List.getElem?_drop] at hL
            have e1 : t.lineStart - 1 - i = (t.lineStart - 2 - i) + 1 := by omega
            have e2 : (contLoop rest gd.2).1 + (t.lineStart - 1 - (i + 1 + (contLoop rest gd.2).1))
                = t.lineStart - 2 - i := by omega
            rw [e2] at hL
            rw [e1, List.getElem?_cons_succ]
            exact hL
          · rw [List.drop_drop] at h3
            have e2 : t.lineStart - i = (t.lineStart - i - 1) + 1 := by omega
            have e3 : (contLoop rest gd.2).1 + (t.lineStart - (i + 1 + (contLoop rest gd.2).1))
                = t.lineStart - i - 1 := by omega
            rw [e3] at h3
            rw [e2, List.drop_succ_cons]
            exact h3

theorem todoLE_total (a b : Todo) : todoLE a b ∨ todoLE b a := by
  rcases lt_trichotomy a.file b.file with h | h | h
  · exact Or.inl (Or.inl h)
  · rcases Nat.le_total a.lineStart b.lineStart with h2 | h2
    · exact Or.inl (Or.inr ⟨h, h2⟩)
    · exact Or.inr (Or.inr ⟨h.symm, h2⟩)
  · exact Or.inr (Or.inl h)

theorem todoLE_trans {a b c : Todo} (h1 : todoLE a b) (h2 : todoLE b c) : todoLE a c := by
  rcases h1 with h1 | ⟨e1, n1⟩
  · rcases h2 with h2 | ⟨e2, n2⟩
    · exact Or.inl (lt_trans h1 h2)
    · exact Or.inl (e2 ▸ h1)
  · rcases h2 with h2 | ⟨e2, n2⟩
    · exact Or.inl (e1 ▸ h2)
    · exact Or.inr ⟨e1.trans e2, le_trans n1 n2⟩

theorem mem_insertTodo (t : Todo) (l : List Todo) (y : Todo) :
    y ∈ insertTodo t l ↔ y = t ∨ y ∈ l := by
  induction l with
  | nil => simp [insertTodo]
  | cons x xs ih =>
    rw [insertTodo]
    split
    · simp [List.mem_cons]
    · simp only [List.mem_cons, ih]
      tauto

theorem pairwise_insertTodo (t : Todo) (l : List Todo) (h : l.Pairwise todoLE) :
    (insertTodo t l).Pairwise todoLE := by
  induction l with
  | nil => simp [insertTodo]
  | cons x xs ih =>
    rw [insertTodo]
    split
    · rename_i hle
      refine List.Pairwise.cons ?_ h
      intro y hy
      rcases List.mem_cons.1 hy with rfl | hy
      · exact hle
      · exact todoLE_trans hle (List.rel_of_pairwise_cons h hy)
    · rename_i hnle
      have hxt : todoLE x t := (todoLE_total t x).resolve_left hnle
      rcases List.pairwise_cons.1 h with ⟨hx, hxs⟩
      refine List.Pairwise.cons ?_ (ih hxs)
      intro y hy
      rcases (mem_insertTodo t xs y).1 hy with rfl | hy
      · exact hxt
      · exact hx y hy

theorem perm_insertTodo (t : Todo) (l : List Todo) : (insertTodo t l).Perm (t :: l) := by
  induction l with
  | nil => simp [insertTodo]
  | cons x xs ih =>
    rw [insertTodo]
    split
    · exact List.Perm.refl _
    · exact (ih.cons x).trans (List.Perm.swap t x xs)

theorem scanLines_cons_match (file : List Char) (valid : List (List Char))
    (line : List Char) (rest : List (List Char)) (gd : List Char × List Char)
    (h : todoMatch line = some gd) :
    ∃ ts ws, scanLines file valid (line :: rest) =
      (⟨file, 1, 1 + (contLoop rest gd.2).1,
        (if (contLoop rest gd.2).2 = [] then "No description provided".toList
         else (contLoop rest gd.2).2),
        (splitComma gd.1).map stripChars⟩ :: ts, ws) := by
  unfold scanLines
  simp only [List.length_cons, scanGo, h, Nat.zero_add]
  exact ⟨_, _, rfl⟩

/-! ### Claims -/

/-- C1: with a registry containing exactly FEAT-1, scanning the three-line
file yields one annotation with line range `"1-2"`, description
`"implement this still missing"`, dependencies `["FEAT-1", "FEAT-2"]`, and
exactly one invalid-identifier warning naming FEAT-2. -/
theorem scan_example_end_to_end :
    scan_file_for_todos "src/x.rs".toList (load_feature_ids ["- id: FEAT-1".toList])
        (some ["// TODO: (FEAT-1, FEAT-2) implement this".toList,
               "// still missing".toList, "fn x() \x7b\x7d".toList]) =
      ([⟨"src/x.rs".toList, 1, 2, "implement this still missing".toList,
         ["FEAT-1".toList, "FEAT-2".toList]⟩],
       [Warn.invalid "src/x.rs".toList 1 ["FEAT-2".toList]]) ∧
    lineField ⟨"src/x.rs".toList, 1, 2, "implement this still missing".toList,
        ["FEAT-1".toList, "FEAT-2".toList]⟩ = "1-2".toList :=
  ⟨by decide, by decide⟩

/-- C2 counterexample: the line `- id: ABx` has value `ABx`, which does not
wholly match `[A-Z0-9-]+`, yet the loader still returns the prefix capture
`AB`; the spec-side whole-value loader returns nothing. -/
theorem load_prefix_capture_cex :
    ("AB".toList ∈ load_feature_ids ["- id: ABx".toList]) ∧
    specLoadIds ["- id: ABx".toList] = [] :=
  ⟨by decide, by decide⟩

/-- C2 (amended): `load_feature_ids` returns exactly the set of maximal
leading `[A-Z0-9-]` runs of the values of `id:` entries whose value starts
with at least one identifier character; the captured token may be a proper
prefix of the value, and lines not of the `- id:` shape (or whose value
starts with a non-identifier character) contribute nothing. -/
theorem load_feature_ids_returns_value_runs (lines : List (List Char)) (tok : List Char) :
    tok ∈ load_feature_ids lines ↔
      ∃ l ∈ lines, ∃ v, specIdValue l = some v ∧
        v.takeWhile isIdChar ≠ [] ∧ tok = v.takeWhile isIdChar := by
  unfold load_feature_ids
  rw [List.mem_filterMap]
  constructor
  · rintro ⟨a, ha, hm⟩
    obtain ⟨u, hu, htok, hne⟩ := (matchIdLine_eq_some a tok).1 hm
    refine ⟨a, ha, stripChars u, ?_, ?_, ?_⟩
    · rw [specIdValue_eq_some]
      exact ⟨u, hu, rfl⟩
    · rw [takeWhile_stripChars_of_rest a u hu, ← htok]
      exact hne
    · rw [takeWhile_stripChars_of_rest a u hu]
      exact htok
  · rintro ⟨l0, hl, v, hv, hne, htok⟩
    obtain ⟨u, hu, rfl⟩ := (specIdValue_eq_some l0 v).1 hv
    refine ⟨l0, hl, ?_⟩
    rw [matchIdLine_eq_some]
    refine ⟨u, hu, ?_, htok ▸ hne⟩
    rw [htok, takeWhile_stripChars_of_rest l0 u hu]

/-- C4: the sorted output sequence is pairwise ordered by file path
(lexicographically) and, within equal file paths, by start line ascending;
it is a permutation of the collected annotations. -/
theorem output_sorted_by_file_then_line (todos : List Todo) :
    (sortTodos todos).Pairwise
      (fun a b => a.file < b.file ∨ (a.file = b.file ∧ a.lineStart ≤ b.lineStart)) ∧
    (sortTodos todos).Perm todos := by
  constructor
  · show (sortTodos todos).Pairwise todoLE
    induction todos with
    | nil => simp [sortTodos]
    | cons h rest ih => exact pairwise_insertTodo _ _ ih
  · induction todos with
    | nil => simp [sortTodos]
    | cons h rest ih => exact (perm_insertTodo h (sortTodos rest)).trans (ih.cons h)

/-- C7: the warnings produced while scanning a file are exactly one
invalid-identifier warning for each recorded annotation whose dependencies
contain at least one identifier outside the registry, carrying the file,
the annotation's start line and the full list of its invalid identifiers,
computed from the recorded dependencies which are left unchanged. -/
theorem invalid_id_warning_exact (file : List Char) (valid : List (List Char))
    (lines : List (List Char)) :
    (scan_file_for_todos file valid (some lines)).2 =
      (scan_file_for_todos file valid (some lines)).1.filterMap fun t =>
        if t.dependencies.filter (fun d => !(valid.contains d)) = [] then none
        else some (Warn.invalid file t.lineStart
          (t.dependencies.filter fun d => !(valid.contains d))) :=
  scanGo_warn file valid lines.length lines 0

/-- C8: a file whose read fails contributes no annotations, produces one
read-failure warning, and the scan of the other files is unaffected. -/
theorem unreadable_file_skipped (file : List Char) (valid : List (List Char))
    (pre post : List (List Char × Option (List (List Char)))) :
    scan_file_for_todos file valid none = ([], [Warn.readFail file]) ∧
    scan_project valid (pre ++ (file, none) :: post) =
      ((scan_project valid pre).1 ++ (scan_project valid post).1,
       (scan_project valid pre).2 ++ Warn.readFail file :: (scan_project valid post).2) := by
  refine ⟨rfl, ?_⟩
  induction pre with
  | nil => simp [scan_project, scan_file_for_todos]
  | cons hd rest ih =>
    obtain ⟨f0, c0⟩ := hd
    simp only [List.cons_append, scan_project, List.append_eq]
    rw [ih]
    simp [List.append_assoc]

/-- C9: every recorded annotation has a non-empty dependencies sequence. -/
theorem dependencies_ne_nil (file : List Char) (valid : List (List Char))
    (lines : List (List Char)) (t : Todo)
    (ht : t ∈ (scan_file_for_todos file valid (some lines)).1) :
    t.dependencies ≠ [] :=
  scanGo_deps file valid lines.length lines 0 t ht

/-- C9 witness: concrete instance of `dependencies_ne_nil`. -/
theorem dependencies_ne_nil_witness :
    (⟨"f".toList, 1, 1, "x".toList, ["A".toList]⟩ : Todo).dependencies ≠ [] :=
  dependencies_ne_nil "f".toList [] ["// TODO: (A) x".toList]
    ⟨"f".toList, 1, 1, "x".toList, ["A".toList]⟩ (by decide)

/-- C3: every annotation's start line is the 1-based index of a line matching
the TODO grammar, and its end line is the start plus the number of
continuation-eligible lines that follow; in particular, with no eligible
continuation the range is a single line. -/
theorem todo_line_range (file : List Char) (valid : List (List Char))
    (lines : List (List Char)) (t : Todo)
    (ht : t ∈ (scan_file_for_todos file valid (some lines)).1) :
    1 ≤ t.lineStart ∧
    (∃ L, lines[t.lineStart - 1]? = some L ∧ (todoMatch L).isSome = true) ∧
    t.lineEnd = t.lineStart + ((lines.drop t.lineStart).takeWhile eligLine).length ∧
    ((lines.drop t.lineStart).takeWhile eligLine = [] → t.lineEnd = t.lineStart) := by
  obtain ⟨h1, ⟨L, hL, hm⟩, h3⟩ := scanGo_pos file valid lines.length lines 0 t ht
  have e1 : t.lineStart - 1 - 0 = t.lineStart - 1 := by omega
  have e2 : t.lineStart - 0 = t.lineStart := by omega
  rw [e1] at hL
  rw [e2] at h3
  refine ⟨h1, ⟨L, hL, hm⟩, h3, fun hnil => ?_⟩
  rw [h3, hnil]
  simp

/-- C3 witness: concrete instance of `todo_line_range`. -/
theorem todo_line_range_witness :
    1 ≤ 1 ∧
    (∃ L, (["// TODO: (A) x".toList, "zz".toList] : List (List Char))[1 - 1]? = some L ∧
      (todoMatch L).isSome = true) ∧
    1 = 1 + ((["// TODO: (A) x".toList, "zz".toList].drop 1).takeWhile eligLine).length ∧
    ((["// TODO: (A) x".toList, "zz".toList].drop 1).takeWhile eligLine = [] → 1 = 1) :=
  todo_line_range "f".toList [] ["// TODO: (A) x".toList, "zz".toList]
    ⟨"f".toList, 1, 1, "x".toList, ["A".toList]⟩ (by decide)

/-- C5: the dependencies of an annotation are the comma split of the
parenthesized group with each piece whitespace-trimmed (empty tokens are
kept): splitting is exactly at commas (joining with commas restores the
group, no piece contains a comma, and the number of pieces is the comma
count plus one), and the group `A, B ,C` yields `["A", "B", "C"]`. -/
theorem dependencies_split_comma (file : List Char) (valid : List (List Char))
    (line : List Char) (rest : List (List Char)) (g d0 : List Char)
    (h : todoMatch line = some (g, d0)) :
    (∃ t ts, (scan_file_for_todos file valid (some (line :: rest))).1 = t :: ts ∧
      t.dependencies = (splitComma g).map stripChars ∧
      (g = "A, B ,C".toList →
        t.dependencies = ["A".toList, "B".toList, "C".toList])) ∧
    joinComma (splitComma g) = g ∧
    (splitComma g).length = g.count ',' + 1 ∧
    (∀ p ∈ splitComma g, ',' ∉ p) := by
  obtain ⟨ts, ws, hs⟩ := scanLines_cons_match file valid line rest (g, d0) h
  refine ⟨⟨⟨file, 1, 1 + (contLoop rest d0).1,
      (if (contLoop rest d0).2 = [] then "No description provided".toList
       else (contLoop rest d0).2), (splitComma g).map stripChars⟩, ts, ?_, rfl, ?_⟩,
    joinComma_splitComma g, length_splitComma g, not_mem_splitComma g⟩
  · show (scanLines file valid (line :: rest)).1 = _
    rw [hs]
  · intro hg
    subst hg
    dsimp only
    decide

/-- C5 witness: concrete instance of `dependencies_split_comma`. -/
theorem dependencies_split_comma_witness :
    (∃ t ts, (scan_file_for_todos "f".toList []
        (some ["// TODO: (A, B ,C) go".toList])).1 = t :: ts ∧
      t.dependencies = (splitComma "A, B ,C".toList).map stripChars ∧
      ("A, B ,C".toList = "A, B ,C".toList →
        t.dependencies = ["A".toList, "B".toList, "C".toList])) ∧
    joinComma (splitComma "A, B ,C".toList) = "A, B ,C".toList ∧
    (splitComma "A, B ,C".toList).length = "A, B ,C".toList.count ',' + 1 ∧
    (∀ p ∈ splitComma "A, B ,C".toList, ',' ∉ p) :=
  dependencies_split_comma "f".toList [] "// TODO: (A, B ,C) go".toList []
    "A, B ,C".toList "go".toList (by decide)

/-- C6: when the concatenated description is empty, the recorded description
is the sentinel string. -/
theorem empty_description_sentinel (file : List Char) (valid : List (List Char))
    (line : List Char) (rest : List (List Char)) (g d0 : List Char)
    (h : todoMatch line = some (g, d0)) (hempty : (contLoop rest d0).2 = []) :
    ∃ t ts, (scan_file_for_todos file valid (some (line :: rest))).1 = t :: ts ∧
      t.description = "No description provided".toList := by
  obtain ⟨ts, ws, hs⟩ := scanLines_cons_match file valid line rest (g, d0) h
  refine ⟨⟨file, 1, 1 + (contLoop rest d0).1,
      (if (contLoop rest d0).2 = [] then "No description provided".toList
       else (contLoop rest d0).2), (splitComma g).map stripChars⟩, ts, ?_, ?_⟩
  · show (scanLines file valid (line :: rest)).1 = _
    rw [hs]
  · dsimp only
    rw [if_pos hempty]

/-- C6 witness: concrete instance of `empty_description_sentinel`. -/
theorem empty_description_sentinel_witness :
    ∃ t ts, (scan_file_for_todos "f".toList [] (some ["// TODO: (A)".toList])).1 = t :: ts ∧
      t.description = "No description provided".toList :=
  empty_description_sentinel "f".toList [] "// TODO: (A)".toList [] "A".toList []
    (by decide) (by decide)

/-- C10: when the initial description is empty but at least one continuation
line is consumed, the recorded description starts with a single space
followed by the space-joined continuation texts, and the sentinel is not
applied. -/
theorem empty_initial_description_space (file : List Char) (valid : List (List Char))
    (line : List Char) (rest : List (List Char)) (g : List Char)
    (h : todoMatch line = some (g, [])) (hk : 1 ≤ (contLoop rest []).1) :
    ∃ t ts, (scan_file_for_todos file valid (some (line :: rest))).1 = t :: ts ∧
      t.description = ' ' :: joinSpace ((rest.takeWhile eligLine).map contText) ∧
      t.description ≠ "No description provided".toList := by
  rcases hW : (rest.takeWhile eligLine).map contText with _ | ⟨c, cs⟩
  · exfalso
    rw [contLoop_eq] at hk
    simp only [List.map_eq_nil_iff] at hW
    rw [hW] at hk
    simp at hk
  · have hdesc : (contLoop rest []).2 = ' ' :: joinSpace (c :: cs) := by
      rw [contLoop_eq]
      dsimp only
      rw [hW]
      simp only [List.map_cons, List.flatten_cons, List.nil_append, List.cons_append]
      rw [joinSpace_cons]
    have hne : (contLoop rest []).2 ≠ [] := by
      rw [hdesc]
      simp
    obtain ⟨ts, ws, hs⟩ := scanLines_cons_match file valid line rest (g, []) h
    refine ⟨⟨file, 1, 1 + (contLoop rest []).1,
        (if (contLoop rest []).2 = [] then "No description provided".toList
         else (contLoop rest []).2), (splitComma g).map stripChars⟩, ts, ?_, ?_, ?_⟩
    · show (scanLines file valid (line :: rest)).1 = _
      rw [hs]
    · dsimp only
      rw [if_neg hne, hdesc]
    · dsimp only
      rw [if_neg hne, hdesc]
      intro heq
      rw [show ("No description provided".toList)
          = 'N' :: "o description provided".toList from rfl] at heq
      injection heq with h1 h2
      exact absurd h1 (by decide)

/-- C10 witness: concrete instance of `empty_initial_description_space`. -/
theorem empty_initial_description_space_witness :
    ∃ t ts, (scan_file_for_todos "f".toList []
        (some ["// TODO: (A)".toList, "// more".toList])).1 = t :: ts ∧
      t.description = ' ' :: joinSpace ((["// more".toList].takeWhile eligLine).map contText) ∧
      t.description ≠ "No description provided".toList :=
  empty_initial_description_space "f".toList [] "// TODO: (A)".toList
    ["// more".toList] "A".toList (by decide) (by decide)
